import Mathlib

/-!
Verification development for the commit-timeline repository.

The embedded code comes from:
* src/src/lib/supabase.ts — extractRepoNameFromUrl and (in the second,
  Timeline document of that file) clusterCommits, the dominant-type
  computation of multi-member clusters, the effective-category fallback
  and the non-empty-group rendering guard;
* src/unnamed/part_000 — the RepositoryInput form: validateUrl and
  handleSubmit.

JavaScript numbers are modelled by rationals (ℚ), machine strings by
String or List Char, and the position function closed over by
clusterCommits (calculateCommitPosition applied to the current time range
and time scale) is passed as an explicit parameter.
-/

namespace CTG

/-- Commit categories: the CommitType values used by the Timeline component
(FEATURE, WARNING, MILESTONE, BUG, CHORE). -/
inductive CommitType
  | FEATURE
  | WARNING
  | MILESTONE
  | BUG
  | CHORE
deriving DecidableEq, Repr

/-- A commit analysis record: category, title and free-text idea. -/
structure CommitAnalysis where
  type : CommitType
  title : String
  idea : String
deriving DecidableEq, Repr

/-- A commit record as consumed by the Timeline component.  The date is the
numeric timestamp.  Both alternately named analysis collections are kept,
each possibly absent (undefined), because the component branches on them. -/
structure Commit where
  sha : String
  date : ℚ
  author : String
  message : String
  description : Option String
  commit_analyses : Option (List CommitAnalysis)
  commit_analises : Option (List CommitAnalysis)
deriving DecidableEq, Repr

/-- commit.commit_analyses || commit.commit_analises || [] — the first
present (non-undefined) operand wins; a present empty array is truthy in
JavaScript and is therefore used as-is. -/
def analysesOf (c : Commit) : List CommitAnalysis :=
  match c.commit_analyses with
  | some l => l
  | none =>
    match c.commit_analises with
    | some l => l
    | none => []

/-- analyses[0]?.type || 'CHORE' on the singleton-cluster rendering path. -/
def singletonCommitType (c : Commit) : CommitType :=
  match (analysesOf c).head? with
  | some a => a.type
  | none => CommitType.CHORE

/-- cluster.commits.map(commit => ...[0]?.type || 'CHORE') on the
multi-member cluster path (the commitTypes array). -/
def clusterCommitTypes (commits : List Commit) : List CommitType :=
  commits.map (fun c =>
    match (analysesOf c).head? with
    | some a => a.type
    | none => CommitType.CHORE)

/-- Math.round on a rational: round half toward positive infinity,
Math.round x = ⌊x + 1/2⌋. -/
def jsRound (q : ℚ) : ℤ := Rat.floor (q + 1/2)

/-- Association list kept in insertion order: lookup of a key. -/
def lookupV {K V : Type} [DecidableEq K] : List (K × V) → K → Option V
  | [], _ => none
  | p :: m, k => if p.1 = k then some p.2 else lookupV m k

/-- Association list kept in insertion order: update the value at a key with
f, or append the key with initial value i — the shape of both the
positionMap accumulation and the category tally in the source. -/
def bumpAssoc {K V : Type} [DecidableEq K] (f : V → V) (i : V) : List (K × V) → K → List (K × V)
  | [], k => [(k, i)]
  | p :: m, k => if p.1 = k then (p.1, f p.2) :: m else p :: bumpAssoc f i m k

/-- The keys of an association list, in insertion order. -/
def keyList {K V : Type} (m : List (K × V)) : List K := m.map Prod.fst

/-- The rounded position of a commit: Math.round(calculateCommitPosition(...)). -/
def posKey (pos : Commit → ℚ) (c : Commit) : ℤ := jsRound (pos c)

/-- The positionMap accumulation of clusterCommits:
positionMap[roundedPosition].push(commit), creating the bucket on first use. -/
def positionMap (pos : Commit → ℚ) (commits : List Commit) : List (ℤ × List Commit) :=
  commits.foldl (fun m c => bumpAssoc (fun cs => cs ++ [c]) [c] m (posKey pos c)) []

/-- ECMAScript array-index keys (canonical integers in [0, 2^32 - 1)):
Object.entries enumerates these before all other own keys, in ascending
numeric order. -/
def isArrayIndexKey (k : ℤ) : Bool := decide (0 ≤ k) && decide (k < 4294967295)

/-- Insert into a key-sorted list, keeping ascending key order. -/
def insertAsc {V : Type} (p : ℤ × V) : List (ℤ × V) → List (ℤ × V)
  | [] => [p]
  | q :: qs => if p.1 < q.1 then p :: q :: qs else q :: insertAsc p qs

/-- Sort an association list by ascending integer key. -/
def sortByKeyAsc {V : Type} (l : List (ℤ × V)) : List (ℤ × V) := l.foldr insertAsc []

/-- Object.entries enumeration order on an integer-keyed record: array-index
keys in ascending numeric order first, then the remaining keys in insertion
order. -/
def jsEntriesOrder {V : Type} (m : List (ℤ × V)) : List (ℤ × V) :=
  sortByKeyAsc (m.filter (fun p => isArrayIndexKey p.1)) ++
    m.filter (fun p => !(isArrayIndexKey p.1))

/-- A cluster of commits sharing one rounded position (ClusteredCommit). -/
structure ClusteredCommit where
  position : ℤ
  commits : List Commit
deriving DecidableEq, Repr

/-- clusterCommits from the Timeline component.  pos stands for the closure
calculateCommitPosition(commit.date, timeRange.start, timeRange.end,
timeScale).  The groupName argument is received and ignored, as in the
source. -/
def clusterCommits (pos : Commit → ℚ) (commits : List Commit) (groupName : String) :
    List ClusteredCommit :=
  (jsEntriesOrder (positionMap pos commits)).map (fun p => ClusteredCommit.mk p.1 p.2)

/-- commitTypes.reduce((acc, type) => { acc[type] = (acc[type] || 0) + 1;
return acc; }, {}) — the per-category frequency tally, keys in first-seen
insertion order. -/
def mostCommonType (ts : List CommitType) : List (CommitType × Nat) :=
  ts.foldl (fun acc t => bumpAssoc (fun n => n + 1) 1 acc t) []

/-- Insert into a count-descending list, after strictly larger counts and
after earlier entries with an equal count (stability). -/
def insertDesc {K : Type} (p : K × Nat) : List (K × Nat) → List (K × Nat)
  | [] => [p]
  | q :: qs => if q.2 ≤ p.2 then p :: q :: qs else q :: insertDesc p qs

/-- Stable sort by descending count: .sort((a, b) => b[1] - a[1]) on the
entries array (Array.prototype.sort is stable). -/
def sortDescByCount {K : Type} (l : List (K × Nat)) : List (K × Nat) := l.foldr insertDesc []

/-- Object.entries(mostCommonType).sort((a, b) => b[1] - a[1])[0][0] —
the dominant category of a cluster's member commits; none when the member
list is empty (the source evaluates it only for clusters of two or more). -/
def dominantType (commits : List Commit) : Option CommitType :=
  ((sortDescByCount (mostCommonType (clusterCommitTypes commits))).head?).map Prod.fst

/-- The rendering guard over Object.entries(groupedCommits):
groupCommits.length > 0 && row — the rows actually rendered are exactly
the groups with at least one commit. -/
def renderedGroups (grouped : List (String × List Commit)) : List (String × List Commit) :=
  grouped.filter (fun g => decide (0 < g.2.length))

/-- Does the first list lead the second (match it position by position)? -/
def leadsWith : List Char → List Char → Bool
  | [], _ => true
  | _ :: _, [] => false
  | p :: ps, s :: ss => (p == s) && leadsWith ps ss

/-- url.split(/[?#]/)[0] — the segment before the first '?' or '#'. -/
def dropParams (s : List Char) : List Char :=
  s.takeWhile (fun c => !(c == '?') && !(c == '#'))

/-- .replace(/\.git$/, '') — remove one trailing ".git" when present. -/
def dropGitSuffix (s : List Char) : List Char :=
  if leadsWith ['t', 'i', 'g', '.'] s.reverse then (s.reverse.drop 4).reverse else s

/-- The literal "github.com/" of the extraction pattern. -/
def ghp : List Char := ['g', 'i', 't', 'h', 'u', 'b', '.', 'c', 'o', 'm', '/']

/-- The capturing group ([^/]+\/[^/]+) applied right after a "github.com/"
occurrence: a greedy non-empty run of non-slash characters, a '/', and a
second greedy non-empty run of non-slash characters. -/
def capturePair (rest : List Char) : Option (List Char) :=
  let seg1 := rest.takeWhile (fun c => !(c == '/'))
  match seg1, rest.drop seg1.length with
  | [], _ => none
  | _ :: _, [] => none
  | _ :: _, _ :: rest2 =>
    let seg2 := rest2.takeWhile (fun c => !(c == '/'))
    if seg2.isEmpty then none else some (seg1 ++ '/' :: seg2)

/-- cleanUrl.match(/github\.com\/([^/]+\/[^/]+)/) — the leftmost start
offset at which the whole pattern matches wins; the engine moves the start
past any "github.com/" occurrence that is not followed by a full
owner/repo pair. -/
def findRepoMatch : List Char → Option (List Char)
  | [] => none
  | c :: cs =>
    if leadsWith ghp (c :: cs) then
      match capturePair ((c :: cs).drop ghp.length) with
      | some g => some g
      | none => findRepoMatch cs
    else findRepoMatch cs

/-- extractRepoNameFromUrl from src/src/lib/supabase.ts. -/
def extractRepoNameFromUrl (url : List Char) : List Char :=
  match findRepoMatch (dropGitSuffix (dropParams url)) with
  | some g => g
  | none => []

/-- The full pattern github\.com\/[^/]+\/[^/]+ matches at start offset i. -/
def matchAtB (s : List Char) (i : Nat) : Bool :=
  leadsWith ghp (s.drop i) && (capturePair (s.drop (i + ghp.length))).isSome

/-- JavaScript \w — [A-Za-z0-9_]. -/
def isWordChar (c : Char) : Bool := c.isAlphanum || c == '_'

/-- JavaScript line terminators, the characters '.' does not match. -/
def isLineTerm (c : Char) : Bool :=
  c == Char.ofNat 10 || c == Char.ofNat 13 || c == Char.ofNat 8232 || c == Char.ofNat 8233

/-- The scheme part https?:\/\/ — returns the remaining text on a match. -/
def afterScheme (s : List Char) : Option (List Char) :=
  if leadsWith ['h', 't', 't', 'p', 's', ':', '/', '/'] s then some (s.drop 8)
  else if leadsWith ['h', 't', 't', 'p', ':', '/', '/'] s then some (s.drop 7)
  else none

/-- validateUrl of the RepositoryInput form:
/^https?:\/\/(www\.)?github\.com\/[\w-]+\/[\w.-]+\/?.*$/ .test(url).
After the mandatory host, a non-empty [\w-]+ run must reach a '/', the next
character must be in [\w.-], and the rest may be anything free of line
terminators (consumed by \/?.*$, where '.' excludes line terminators). -/
def validateUrl (url : List Char) : Bool :=
  match afterScheme url with
  | none => false
  | some s0 =>
    let s1 := if leadsWith ['w', 'w', 'w', '.'] s0 then s0.drop 4 else s0
    if leadsWith ghp s1 then
      let rest := s1.drop ghp.length
      let a := rest.takeWhile (fun c => isWordChar c || c == '-')
      match a, rest.drop a.length with
      | [], _ => false
      | _ :: _, [] => false
      | _ :: _, ch :: r2 =>
        if ch == '/' then
          match r2 with
          | [] => false
          | b0 :: _ =>
            (isWordChar b0 || b0 == '.' || b0 == '-') && r2.all (fun c => !(isLineTerm c))
        else false
    else false

/-- String.prototype.trim white space: WhiteSpace plus LineTerminator code
points. -/
def isJsSpace (c : Char) : Bool :=
  c == ' ' || c == Char.ofNat 9 || c == Char.ofNat 10 || c == Char.ofNat 11 ||
    c == Char.ofNat 12 || c == Char.ofNat 13 || c == Char.ofNat 160 ||
    c == Char.ofNat 5760 || (decide (8192 ≤ c.toNat) && decide (c.toNat ≤ 8202)) ||
    c == Char.ofNat 8232 || c == Char.ofNat 8233 || c == Char.ofNat 8239 ||
    c == Char.ofNat 8287 || c == Char.ofNat 12288 || c == Char.ofNat 65279

/-- url.trim() — strip JavaScript white space from both ends. -/
def jsTrim (s : List Char) : List Char :=
  ((s.dropWhile isJsSpace).reverse.dropWhile isJsSpace).reverse

/-- The outcome of RepositoryInput.handleSubmit.  checkResult stands for the
awaited checkRepoExists call: .error when it throws, .ok with its boolean
result otherwise. -/
inductive SubmitResult
  | errEmptyUrl
  | errInvalidUrl
  | errNoRepoName
  | errCheckFailed
  | submitted (url : List Char) (repoName : List Char) (repoExistsFlag : Bool)
deriving DecidableEq

/-- handleSubmit of the RepositoryInput form: the guard chain before the
onSubmit callback is invoked.  A submitted result is exactly an invocation
of onSubmit(url, repoName, exists). -/
def handleSubmit (url : List Char) (checkResult : Except Unit Bool) : SubmitResult :=
  if (jsTrim url).isEmpty then SubmitResult.errEmptyUrl
  else if !(validateUrl url) then SubmitResult.errInvalidUrl
  else
    let repoName := extractRepoNameFromUrl url
    if repoName.isEmpty then SubmitResult.errNoRepoName
    else
      match checkResult with
      | Except.error _ => SubmitResult.errCheckFailed
      | Except.ok ex => SubmitResult.submitted url repoName ex

/-! ### Association-list lemmas -/

theorem lookupV_bump_self {K V : Type} [DecidableEq K] (f : V → V) (i : V)
    (m : List (K × V)) (k : K) :
    lookupV (bumpAssoc f i m k) k = some ((lookupV m k).elim i f) := by
  induction m with
  | nil => simp [bumpAssoc, lookupV]
  | cons p m ih =>
    by_cases h : p.1 = k
    · simp [bumpAssoc, lookupV, h]
    · simp [bumpAssoc, lookupV, h, ih]

theorem lookupV_bump_ne {K V : Type} [DecidableEq K] (f : V → V) (i : V)
    (m : List (K × V)) (k k' : K) (hne : k' ≠ k) :
    lookupV (bumpAssoc f i m k) k' = lookupV m k' := by
  induction m with
  | nil => simp [bumpAssoc, lookupV, Ne.symm hne]
  | cons p m ih =>
    by_cases h : p.1 = k
    · simp [bumpAssoc, lookupV, h, (Ne.symm hne : k ≠ k')]
    · simp [bumpAssoc, lookupV, h, ih]

theorem keyList_bump_mem {K V : Type} [DecidableEq K] (f : V → V) (i : V)
    (m : List (K × V)) (k : K) (h : k ∈ keyList m) :
    keyList (bumpAssoc f i m k) = keyList m := by
  induction m with
  | nil => simp [keyList] at h
  | cons p m ih =>
    by_cases hp : p.1 = k
    · simp [bumpAssoc, keyList, hp]
    · have hm : k ∈ keyList m := by
        simp only [keyList, List.map_cons, List.mem_cons] at h
        rcases h with h1 | h2
        · exact absurd h1.symm hp
        · exact h2
      simp only [bumpAssoc, keyList, List.map_cons, if_neg hp]
      simp only [keyList] at ih
      rw [ih hm]

theorem keyList_bump_new {K V : Type} [DecidableEq K] (f : V → V) (i : V)
    (m : List (K × V)) (k : K) (h : k ∉ keyList m) :
    keyList (bumpAssoc f i m k) = keyList m ++ [k] := by
  induction m with
  | nil => simp [bumpAssoc, keyList]
  | cons p m ih =>
    have hp : p.1 ≠ k := by
      intro he
      exact h (by simp only [keyList, List.map_cons, List.mem_cons]; exact Or.inl he.symm)
    have hm : k ∉ keyList m := by
      intro hmem
      exact h (by simp only [keyList, List.map_cons, List.mem_cons]; exact Or.inr hmem)
    simp only [bumpAssoc, keyList, List.map_cons, if_neg hp, List.cons_append]
    simp only [keyList] at ih
    rw [ih hm]

theorem keyList_bump_nodup {K V : Type} [DecidableEq K] (f : V → V) (i : V)
    (m : List (K × V)) (k : K) (h : (keyList m).Nodup) :
    (keyList (bumpAssoc f i m k)).Nodup := by
  by_cases hk : k ∈ keyList m
  · rw [keyList_bump_mem f i m k hk]; exact h
  · rw [keyList_bump_new f i m k hk]
    simp [List.nodup_append, h, hk]

theorem lookupV_eq_none {K V : Type} [DecidableEq K] (m : List (K × V)) (k : K) :
    lookupV m k = none ↔ k ∉ keyList m := by
  induction m with
  | nil => simp [lookupV, keyList]
  | cons p m ih =>
    by_cases h : p.1 = k
    · simp [lookupV, keyList, h]
    · simp only [lookupV, if_neg h, keyList, List.map_cons, List.mem_cons]
      simp only [keyList] at ih
      rw [ih]
      constructor
      · intro hn hc
        rcases hc with hc | hc
        · exact h hc.symm
        · exact hn hc
      · intro hn hc
        exact hn (Or.inr hc)

theorem mem_of_lookupV {K V : Type} [DecidableEq K] {m : List (K × V)} {k : K} {v : V}
    (h : lookupV m k = some v) : (k, v) ∈ m := by
  induction m with
  | nil => simp [lookupV] at h
  | cons p m ih =>
    obtain ⟨a, b⟩ := p
    by_cases hp : a = k
    · subst hp
      simp [lookupV] at h
      subst h
      exact List.mem_cons_self _ _
    · simp [lookupV, hp] at h
      exact List.mem_cons_of_mem _ (ih h)

theorem lookupV_of_mem {K V : Type} [DecidableEq K] {m : List (K × V)} {k : K} {v : V}
    (hnd : (keyList m).Nodup) (h : (k, v) ∈ m) : lookupV m k = some v := by
  induction m with
  | nil => simp at h
  | cons p m ih =>
    obtain ⟨a, b⟩ := p
    have hnd' : a ∉ keyList m ∧ (keyList m).Nodup := by
      simpa only [keyList, List.map_cons, List.nodup_cons] using hnd
    rcases List.mem_cons.mp h with h1 | h2
    · injection h1 with hk hv
      subst hk; subst hv
      simp [lookupV]
    · have ha : a ≠ k := by
        rintro rfl
        exact hnd'.1 (by
          simp only [keyList]
          exact List.mem_map.mpr ⟨(a, v), h2, rfl⟩)
      simp only [lookupV, if_neg ha]
      exact ih hnd'.2 h2

/-! ### positionMap lemmas -/

/-- Combination of an existing bucket with the commits a fold appends. -/
def combineB (o : Option (List Commit)) (l : List Commit) : Option (List Commit) :=
  match o with
  | some v => some (v ++ l)
  | none => if l.isEmpty then none else some l

theorem positionMap_aux_lookup (pos : Commit → ℚ) (commits : List Commit)
    (m : List (ℤ × List Commit)) (k : ℤ) :
    lookupV (commits.foldl
        (fun m c => bumpAssoc (fun cs => cs ++ [c]) [c] m (posKey pos c)) m) k
      = combineB (lookupV m k) (commits.filter (fun c => decide (posKey pos c = k))) := by
  induction commits generalizing m with
  | nil =>
    simp only [List.foldl_nil, List.filter_nil, combineB]
    cases lookupV m k <;> simp
  | cons c cs ih =>
    rw [List.foldl_cons, ih]
    by_cases h : posKey pos c = k
    · rw [List.filter_cons_of_pos (by simp [h]), ← h, lookupV_bump_self]
      cases hm : lookupV m (posKey pos c) <;> simp [combineB, Option.elim]
    · rw [List.filter_cons_of_neg (by simp [h]),
        lookupV_bump_ne _ _ _ _ _ (fun he => h he.symm)]

theorem positionMap_lookup (pos : Commit → ℚ) (commits : List Commit) (k : ℤ) :
    lookupV (positionMap pos commits) k
      = combineB none (commits.filter (fun c => decide (posKey pos c = k))) :=
  positionMap_aux_lookup pos commits [] k

theorem positionMap_keys_nodup (pos : Commit → ℚ) (commits : List Commit) :
    (keyList (positionMap pos commits)).Nodup := by
  have aux : ∀ (cs : List Commit) (m : List (ℤ × List Commit)), (keyList m).Nodup →
      (keyList (cs.foldl
        (fun m c => bumpAssoc (fun cs => cs ++ [c]) [c] m (posKey pos c)) m)).Nodup := by
    intro cs
    induction cs with
    | nil => intro m h; simpa using h
    | cons c cs ih =>
      intro m h
      rw [List.foldl_cons]
      exact ih _ (keyList_bump_nodup _ _ _ _ h)
  exact aux commits [] (by simp [keyList])

theorem positionMap_bucket {pos : Commit → ℚ} {commits : List Commit}
    {k : ℤ} {cs : List Commit} (h : (k, cs) ∈ positionMap pos commits) :
    cs = commits.filter (fun c => decide (posKey pos c = k)) ∧ cs ≠ [] := by
  have hl := lookupV_of_mem (positionMap_keys_nodup pos commits) h
  rw [positionMap_lookup] at hl
  by_cases hf : (commits.filter (fun c => decide (posKey pos c = k))).isEmpty
  · simp [combineB, hf] at hl
  · simp only [combineB, if_neg hf] at hl
    injection hl with hl
    subst hl
    exact ⟨rfl, by simpa [List.isEmpty_iff] using hf⟩

theorem positionMap_mem_key {pos : Commit → ℚ} {commits : List Commit} {k : ℤ} :
    k ∈ keyList (positionMap pos commits)
      ↔ ∃ c ∈ commits, posKey pos c = k := by
  rw [← not_iff_not, ← lookupV_eq_none, positionMap_lookup]
  by_cases hf : (commits.filter (fun c => decide (posKey pos c = k))).isEmpty
  · simp only [combineB, if_pos hf]
    rw [List.isEmpty_iff, List.filter_eq_nil_iff] at hf
    have hne : ¬ ∃ c ∈ commits, posKey pos c = k := by
      rintro ⟨c, hc, hk⟩
      exact hf c hc (decide_eq_true hk)
    simp [hne]
  · simp only [combineB, if_neg hf]
    rw [List.isEmpty_iff] at hf
    have hex : ∃ c ∈ commits, posKey pos c = k := by
      rcases List.exists_mem_of_ne_nil _ hf with ⟨c, hc⟩
      rcases List.mem_filter.mp hc with ⟨hc1, hc2⟩
      exact ⟨c, hc1, of_decide_eq_true hc2⟩
    simp [hex]

theorem bump_join_perm (m : List (ℤ × List Commit)) (k : ℤ) (c : Commit) :
    ((bumpAssoc (fun cs => cs ++ [c]) [c] m k).map Prod.snd).flatten.Perm
      (c :: (m.map Prod.snd).flatten) := by
  induction m with
  | nil => simp [bumpAssoc]
  | cons p m ih =>
    obtain ⟨a, b⟩ := p
    by_cases h : a = k
    · simp only [bumpAssoc, if_pos h, List.map_cons, List.flatten_cons]
      rw [List.append_assoc, List.singleton_append]
      exact List.perm_middle
    · simp only [bumpAssoc, if_neg h, List.map_cons, List.flatten_cons]
      refine List.Perm.trans (List.Perm.append_left b ih) ?_
      exact List.perm_middle

theorem positionMap_join_perm (pos : Commit → ℚ) (commits : List Commit) :
    ((positionMap pos commits).map Prod.snd).flatten.Perm commits := by
  have aux : ∀ (cs : List Commit) (m : List (ℤ × List Commit)),
      ((cs.foldl (fun m c => bumpAssoc (fun cs => cs ++ [c]) [c] m (posKey pos c)) m).map
          Prod.snd).flatten.Perm ((m.map Prod.snd).flatten ++ cs) := by
    intro cs
    induction cs with
    | nil => intro m; simp
    | cons c cs ih =>
      intro m
      rw [List.foldl_cons]
      refine (ih _).trans ?_
      refine List.Perm.trans (List.Perm.append_right cs (bump_join_perm m (posKey pos c) c)) ?_
      exact List.perm_middle.symm
  simpa using aux commits []

/-! ### Object.entries enumeration lemmas -/

theorem insertAsc_perm {V : Type} (p : ℤ × V) (l : List (ℤ × V)) :
    (insertAsc p l).Perm (p :: l) := by
  induction l with
  | nil => simp [insertAsc]
  | cons q qs ih =>
    by_cases h : p.1 < q.1
    · simp [insertAsc, h]
    · simp only [insertAsc, if_neg h]
      exact (ih.cons q).trans (List.Perm.swap p q qs)

theorem sortByKeyAsc_perm {V : Type} (l : List (ℤ × V)) :
    (sortByKeyAsc l).Perm l := by
  induction l with
  | nil => simp [sortByKeyAsc]
  | cons p l ih =>
    exact (insertAsc_perm p (sortByKeyAsc l)).trans (ih.cons p)

theorem insertAsc_sorted {V : Type} (p : ℤ × V) (l : List (ℤ × V))
    (h : l.Pairwise (fun x y => x.1 ≤ y.1)) :
    (insertAsc p l).Pairwise (fun x y => x.1 ≤ y.1) := by
  induction l with
  | nil => simp [insertAsc]
  | cons q qs ih =>
    rcases List.pairwise_cons.mp h with ⟨hq, hqs⟩
    by_cases hlt : p.1 < q.1
    · simp only [insertAsc, if_pos hlt]
      refine List.pairwise_cons.mpr ⟨?_, h⟩
      intro x hx
      rcases List.mem_cons.mp hx with hx | hx
      · exact hx ▸ le_of_lt hlt
      · exact le_trans (le_of_lt hlt) (hq x hx)
    · simp only [insertAsc, if_neg hlt]
      refine List.pairwise_cons.mpr ⟨?_, ih hqs⟩
      intro x hx
      rcases List.mem_cons.mp ((insertAsc_perm p qs).mem_iff.mp hx) with hx | hx
      · exact hx ▸ le_of_not_lt hlt
      · exact hq x hx

theorem sortByKeyAsc_sorted {V : Type} (l : List (ℤ × V)) :
    (sortByKeyAsc l).Pairwise (fun x y => x.1 ≤ y.1) := by
  induction l with
  | nil => simp [sortByKeyAsc]
  | cons p l ih => exact insertAsc_sorted p (sortByKeyAsc l) ih

theorem jsEntriesOrder_perm {V : Type} (m : List (ℤ × V)) :
    (jsEntriesOrder m).Perm m := by
  unfold jsEntriesOrder
  refine List.Perm.trans
    (List.Perm.append_right _ (sortByKeyAsc_perm (m.filter (fun p => isArrayIndexKey p.1)))) ?_
  exact List.filter_append_perm (fun p => isArrayIndexKey p.1) m

/-! ### Cluster membership and counting helpers -/

theorem clusterCommits_mem {pos : Commit → ℚ} {commits : List Commit} {g : String}
    {cl : ClusteredCommit} :
    cl ∈ clusterCommits pos commits g
      ↔ (cl.position, cl.commits) ∈ positionMap pos commits := by
  unfold clusterCommits
  rw [List.mem_map]
  constructor
  · rintro ⟨p, hp, rfl⟩
    simpa using (jsEntriesOrder_perm _).mem_iff.mp hp
  · intro h
    exact ⟨(cl.position, cl.commits), (jsEntriesOrder_perm _).mem_iff.mpr h, rfl⟩

theorem countP_key_eq_one {K V : Type} [DecidableEq K] (m : List (K × V)) (k : K)
    (hnd : (keyList m).Nodup) (hmem : k ∈ keyList m) :
    List.countP (fun p => decide (p.1 = k)) m = 1 := by
  induction m with
  | nil => simp [keyList] at hmem
  | cons p m ih =>
    obtain ⟨a, b⟩ := p
    have hnd' : a ∉ keyList m ∧ (keyList m).Nodup := by
      simpa only [keyList, List.map_cons, List.nodup_cons] using hnd
    by_cases hak : a = k
    · subst hak
      rw [List.countP_cons_of_pos _ _ (by simp)]
      have h0 : List.countP (fun p => decide (p.1 = a)) m = 0 := by
        rw [List.countP_eq_zero]
        intro q hq
        simp only [decide_eq_true_eq]
        intro he
        exact hnd'.1 (by
          simp only [keyList]
          exact List.mem_map.mpr ⟨q, hq, he⟩)
      rw [h0]
    · rw [List.countP_cons_of_neg _ _ (by simp [hak])]
      apply ih hnd'.2
      have : k = a ∨ k ∈ keyList m := by
        simpa only [keyList, List.map_cons, List.mem_cons] using hmem
      rcases this with h | h
      · exact absurd h.symm hak
      · exact h

/-! ### Sample inputs used by the concrete witnesses -/

/-- A sample commit whose position is 10. -/
def sampleA : Commit := ⟨"a", 10, "u", "m", none, none, none⟩

/-- A sample commit whose position is 10.1 (also rounds to 10). -/
def sampleB : Commit := ⟨"b", 101/10, "u", "m", none, none, none⟩

/-- A sample commit whose position is 50. -/
def sampleC : Commit := ⟨"c", 50, "u", "m", none, none, none⟩

/-- A sample position function: the commit date itself. -/
def datePos : Commit → ℚ := fun c => c.date

/-- A sample commit carrying a FEATURE analysis. -/
def featX : Commit := ⟨"f1", 0, "u", "m", none, some [⟨CommitType.FEATURE, "t", "i"⟩], none⟩

/-- A second sample commit carrying a FEATURE analysis. -/
def featY : Commit := ⟨"f2", 0, "u", "m", none, some [⟨CommitType.FEATURE, "t", "i"⟩], none⟩

/-- A sample commit carrying a BUG analysis. -/
def bugX : Commit := ⟨"b1", 0, "u", "m", none, some [⟨CommitType.BUG, "t", "i"⟩], none⟩

/-- A second sample commit carrying a BUG analysis. -/
def bugY : Commit := ⟨"b2", 0, "u", "m", none, some [⟨CommitType.BUG, "t", "i"⟩], none⟩

/-! ### Claims C1, C2, C7, C8 -/

/-- Claim C1: clustering conservation — the member counts of the clusters
returned by clusterCommits sum to the length of the input commit list, and
every input commit appears in exactly one cluster's member list. -/
theorem clustering_conservation (pos : Commit → ℚ) (commits : List Commit) (g : String) :
    (((clusterCommits pos commits g).map (fun cl => cl.commits.length)).sum = commits.length)
    ∧ ∀ c ∈ commits,
      ((clusterCommits pos commits g).filter (fun cl => decide (c ∈ cl.commits))).length = 1 := by
  constructor
  · have h1 : ((clusterCommits pos commits g).map (fun cl => cl.commits.length))
        = ((jsEntriesOrder (positionMap pos commits)).map (fun p => p.2.length)) := by
      unfold clusterCommits
      rw [List.map_map]
      rfl
    have h2 : ((jsEntriesOrder (positionMap pos commits)).map (fun p => p.2.length))
        = (((jsEntriesOrder (positionMap pos commits)).map Prod.snd).map List.length) := by
      rw [List.map_map]
      rfl
    rw [h1, h2, ← List.length_flatten]
    have h3 := ((jsEntriesOrder_perm (positionMap pos commits)).map Prod.snd).flatten
    exact (h3.trans (positionMap_join_perm pos commits)).length_eq
  · intro c hc
    rw [← List.countP_eq_length_filter]
    have h5 : List.countP (fun cl => decide (c ∈ cl.commits)) (clusterCommits pos commits g)
        = List.countP (fun p => decide (c ∈ p.2)) (jsEntriesOrder (positionMap pos commits)) := by
      unfold clusterCommits
      rw [List.countP_map]
      rfl
    have h6 : List.countP (fun p => decide (c ∈ p.2)) (positionMap pos commits)
        = List.countP (fun p => decide (p.1 = posKey pos c)) (positionMap pos commits) := by
      apply List.countP_congr
      intro p hp
      obtain ⟨a, bs⟩ := p
      rcases positionMap_bucket hp with ⟨hb, -⟩
      subst hb
      simp only [decide_eq_true_eq, List.mem_filter, decide_eq_true_eq]
      constructor
      · rintro ⟨-, h⟩
        exact h.symm
      · rintro rfl
        exact ⟨hc, rfl⟩
    rw [h5, (jsEntriesOrder_perm (positionMap pos commits)).countP_eq, h6]
    exact countP_key_eq_one _ _ (positionMap_keys_nodup pos commits)
      (positionMap_mem_key.mpr ⟨c, hc, rfl⟩)

/-- Witness for clustering_conservation at a concrete three-commit input. -/
theorem clustering_conservation_w :
    ((clusterCommits datePos [sampleA, sampleB, sampleC] "g").filter
        (fun cl => decide (sampleA ∈ cl.commits))).length = 1 :=
  (clustering_conservation datePos [sampleA, sampleB, sampleC] "g").2 sampleA
    (List.mem_cons_self _ _)

/-- Claim C2: collision bucketing — every cluster's member list is exactly the
input commits whose rounded position equals the cluster's position field, in
input order (a filter, hence a sublist of the input); and two input commits
land in one common cluster exactly when their rounded positions agree. -/
theorem collision_bucketing (pos : Commit → ℚ) (commits : List Commit) (g : String) :
    (∀ cl ∈ clusterCommits pos commits g,
        cl.commits = commits.filter (fun c => decide (posKey pos c = cl.position))
          ∧ cl.commits.Sublist commits)
    ∧ (∀ c1 ∈ commits, ∀ c2 ∈ commits,
        ((∃ cl ∈ clusterCommits pos commits g, c1 ∈ cl.commits ∧ c2 ∈ cl.commits)
          ↔ posKey pos c1 = posKey pos c2)) := by
  have bucket : ∀ cl ∈ clusterCommits pos commits g,
      cl.commits = commits.filter (fun c => decide (posKey pos c = cl.position)) := by
    intro cl hcl
    exact (positionMap_bucket (clusterCommits_mem.mp hcl)).1
  refine ⟨fun cl hcl => ⟨bucket cl hcl, ?_⟩, ?_⟩
  · rw [bucket cl hcl]
    exact List.filter_sublist commits
  · intro c1 h1 c2 h2
    constructor
    · rintro ⟨cl, hcl, hm1, hm2⟩
      rw [bucket cl hcl, List.mem_filter] at hm1 hm2
      rw [of_decide_eq_true hm1.2, of_decide_eq_true hm2.2]
    · intro heq
      have hlk := positionMap_lookup pos commits (posKey pos c1)
      have hne : ¬ (commits.filter (fun c => decide (posKey pos c = posKey pos c1))).isEmpty
          = true := by
        intro hemp
        rw [List.isEmpty_iff] at hemp
        have hmemf : c1 ∈ commits.filter (fun c => decide (posKey pos c = posKey pos c1)) :=
          List.mem_filter.mpr ⟨h1, decide_eq_true rfl⟩
        rw [hemp] at hmemf
        simp at hmemf
      simp only [combineB, if_neg hne] at hlk
      refine ⟨ClusteredCommit.mk (posKey pos c1)
        (commits.filter (fun c => decide (posKey pos c = posKey pos c1))),
        clusterCommits_mem.mpr (mem_of_lookupV hlk), ?_, ?_⟩
      · exact List.mem_filter.mpr ⟨h1, decide_eq_true rfl⟩
      · exact List.mem_filter.mpr ⟨h2, decide_eq_true heq.symm⟩

/-- Evaluation of the rounded position of sampleA. -/
theorem posKey_sampleA : posKey datePos sampleA = 10 := by
  show (⌊(10 : ℚ) + 1/2⌋ : ℤ) = 10
  norm_num

/-- Evaluation of the rounded position of sampleB (10.1 rounds to 10). -/
theorem posKey_sampleB : posKey datePos sampleB = 10 := by
  show (⌊(101/10 : ℚ) + 1/2⌋ : ℤ) = 10
  norm_num

/-- Evaluation of the rounded position of sampleC. -/
theorem posKey_sampleC : posKey datePos sampleC = 50 := by
  show (⌊(50 : ℚ) + 1/2⌋ : ℤ) = 50
  norm_num

/-- Concrete evaluation: the two commits rounding to 10 form one cluster. -/
theorem cluster_pair_eval :
    clusterCommits datePos [sampleA, sampleB] "g"
      = [ClusteredCommit.mk 10 [sampleA, sampleB]] := by
  simp [clusterCommits, positionMap, jsEntriesOrder, sortByKeyAsc, insertAsc,
    isArrayIndexKey, bumpAssoc, posKey_sampleA, posKey_sampleB]

/-- Witness for collision_bucketing: the single cluster of two commits that
round to position 10 carries exactly the filtered input. -/
theorem collision_bucketing_w :
    (ClusteredCommit.mk 10 [sampleA, sampleB]).commits
      = List.filter
          (fun c => decide (posKey datePos c = (ClusteredCommit.mk 10 [sampleA, sampleB]).position))
          [sampleA, sampleB] :=
  ((collision_bucketing datePos [sampleA, sampleB] "g").1 _
    (by rw [cluster_pair_eval]; exact List.mem_cons_self _ _)).1

/-- Claim C7: determinism — clusterCommits is a pure function of the position
closure and the commit list: identical inputs give identical outputs, and the
unused groupName argument has no influence at all. -/
theorem clustering_deterministic (pos pos' : Commit → ℚ) (commits commits' : List Commit)
    (g g' : String) (hpos : pos = pos') (hcs : commits = commits') :
    clusterCommits pos commits g = clusterCommits pos' commits' g' := by
  subst hpos
  subst hcs
  rfl

/-- Witness for clustering_deterministic at a concrete input and two distinct
group names. -/
theorem clustering_deterministic_w :
    clusterCommits datePos [sampleA] "g" = clusterCommits datePos [sampleA] "h" :=
  clustering_deterministic datePos datePos [sampleA] [sampleA] "g" "h" rfl rfl

/-- Claim C8: when every rounded position lies on the 0–100 grid (hence is an
ECMAScript array index), the returned cluster list is strictly ascending in
position, because Object.entries enumerates array-index keys in ascending
numeric order. -/
theorem clusters_sorted (pos : Commit → ℚ) (commits : List Commit) (g : String)
    (h : ∀ c ∈ commits, 0 ≤ posKey pos c ∧ posKey pos c ≤ 100) :
    ((clusterCommits pos commits g).map (fun cl => cl.position)).Pairwise (fun a b => a < b) := by
  have hkeys : ∀ p ∈ positionMap pos commits, isArrayIndexKey p.1 = true := by
    intro p hp
    obtain ⟨a, bs⟩ := p
    have hmem : a ∈ keyList (positionMap pos commits) := by
      simp only [keyList]
      exact List.mem_map.mpr ⟨(a, bs), hp, rfl⟩
    rcases positionMap_mem_key.mp hmem with ⟨c, hc, hk⟩
    rcases h c hc with ⟨h0, h100⟩
    rw [hk] at h0 h100
    simp only [isArrayIndexKey, Bool.and_eq_true, decide_eq_true_eq]
    exact ⟨h0, lt_of_le_of_lt h100 (by norm_num)⟩
  have hfilter1 : (positionMap pos commits).filter (fun p => isArrayIndexKey p.1)
      = positionMap pos commits := List.filter_eq_self.mpr hkeys
  have hfilter2 : (positionMap pos commits).filter (fun p => !(isArrayIndexKey p.1)) = [] := by
    rw [List.filter_eq_nil_iff]
    intro p hp
    simp [hkeys p hp]
  have hentries : jsEntriesOrder (positionMap pos commits)
      = sortByKeyAsc (positionMap pos commits) := by
    unfold jsEntriesOrder
    rw [hfilter1, hfilter2, List.append_nil]
  have hsorted := sortByKeyAsc_sorted (positionMap pos commits)
  have hnodup : ((sortByKeyAsc (positionMap pos commits)).map Prod.fst).Nodup := by
    have hperm := (sortByKeyAsc_perm (positionMap pos commits)).map Prod.fst
    have hnd : ((positionMap pos commits).map Prod.fst).Nodup := positionMap_keys_nodup pos commits
    exact hperm.nodup_iff.mpr hnd
  unfold clusterCommits
  rw [hentries, List.map_map]
  have hmap : ((sortByKeyAsc (positionMap pos commits)).map
        ((fun cl => cl.position) ∘ (fun p => ClusteredCommit.mk p.1 p.2)))
      = (sortByKeyAsc (positionMap pos commits)).map Prod.fst := rfl
  rw [hmap]
  have hle : ((sortByKeyAsc (positionMap pos commits)).map Prod.fst).Pairwise
      (fun a b => a ≤ b) := List.pairwise_map.mpr hsorted
  have hne : ((sortByKeyAsc (positionMap pos commits)).map Prod.fst).Pairwise
      (fun a b => a ≠ b) := hnodup
  exact (hle.and hne).imp (fun h => lt_of_le_of_ne h.1 h.2)

/-- Witness for clusters_sorted at a concrete input given out of order. -/
theorem clusters_sorted_w :
    ((clusterCommits datePos [sampleC, sampleA] "g").map (fun cl => cl.position)).Pairwise
      (fun a b => a < b) :=
  clusters_sorted datePos [sampleC, sampleA] "g" (by
    intro c hc
    rcases List.mem_cons.mp hc with rfl | hc
    · rw [posKey_sampleC]
      exact ⟨by decide, by decide⟩
    · rcases List.mem_cons.mp hc with rfl | hc
      · rw [posKey_sampleA]
        exact ⟨by decide, by decide⟩
      · simp at hc)

/-! ### Category tally lemmas -/

/-- Combination of an existing tally count with the number of later hits. -/
def combineN (o : Option Nat) (n : Nat) : Option Nat :=
  match o with
  | some v => some (v + n)
  | none => if n = 0 then none else some n

theorem tally_aux_lookup (ts : List CommitType) (m : List (CommitType × Nat)) (t : CommitType) :
    lookupV (ts.foldl (fun acc x => bumpAssoc (fun n => n + 1) 1 acc x) m) t
      = combineN (lookupV m t) (ts.count t) := by
  induction ts generalizing m with
  | nil =>
    simp only [List.foldl_nil, List.count_nil, combineN]
    cases lookupV m t <;> simp
  | cons x ts ih =>
    rw [List.foldl_cons, ih]
    by_cases h : x = t
    · subst h
      rw [lookupV_bump_self]
      have hc : (x :: ts).count x = ts.count x + 1 := by simp [List.count_cons]
      rw [hc]
      cases hm : lookupV m x <;> simp [combineN, Option.elim] <;> omega
    · rw [lookupV_bump_ne _ _ _ _ _ (fun he => h he.symm)]
      have hc : (x :: ts).count t = ts.count t := by simp [List.count_cons, h]
      rw [hc]

theorem tally_lookup (ts : List CommitType) (t : CommitType) :
    lookupV (mostCommonType ts) t = combineN none (ts.count t) :=
  tally_aux_lookup ts [] t

theorem tally_keys_nodup (ts : List CommitType) :
    (keyList (mostCommonType ts)).Nodup := by
  have aux : ∀ (l : List CommitType) (m : List (CommitType × Nat)), (keyList m).Nodup →
      (keyList (l.foldl (fun acc x => bumpAssoc (fun n => n + 1) 1 acc x) m)).Nodup := by
    intro l
    induction l with
    | nil => intro m h; simpa using h
    | cons x l ih =>
      intro m h
      rw [List.foldl_cons]
      exact ih _ (keyList_bump_nodup _ _ _ _ h)
  exact aux ts [] (by simp [keyList])

theorem tally_mem_count {ts : List CommitType} {t : CommitType} {n : Nat}
    (h : (t, n) ∈ mostCommonType ts) : t ∈ ts ∧ n = ts.count t := by
  have hl := lookupV_of_mem (tally_keys_nodup ts) h
  rw [tally_lookup] at hl
  by_cases hz : ts.count t = 0
  · simp [combineN, hz] at hl
  · simp only [combineN, if_neg hz] at hl
    injection hl with hl
    exact ⟨List.count_pos_iff.mp (Nat.pos_of_ne_zero hz), hl.symm⟩

theorem tally_count_mem {ts : List CommitType} {t : CommitType} (h : t ∈ ts) :
    (t, ts.count t) ∈ mostCommonType ts := by
  apply mem_of_lookupV
  rw [tally_lookup]
  have hz : ts.count t ≠ 0 := Nat.pos_iff_ne_zero.mp (List.count_pos_iff.mpr h)
  simp [combineN, hz]

/-- The list of distinct categories in order of first occurrence — the key
order of the tally record. -/
def dedupKeepFirst : List CommitType → List CommitType
  | [] => []
  | t :: ts => t :: dedupKeepFirst (ts.filter (fun x => decide (x ≠ t)))
termination_by l => l.length
decreasing_by
  simp only [List.length_cons]
  exact Nat.lt_succ_of_le (List.length_filter_le _ _)

theorem tally_aux_keys (ts : List CommitType) (m : List (CommitType × Nat)) :
    keyList (ts.foldl (fun acc x => bumpAssoc (fun n => n + 1) 1 acc x) m)
      = keyList m ++ dedupKeepFirst (ts.filter (fun x => decide (x ∉ keyList m))) := by
  induction ts generalizing m with
  | nil => simp [dedupKeepFirst]
  | cons x ts ih =>
    rw [List.foldl_cons, ih]
    by_cases hx : x ∈ keyList m
    · rw [keyList_bump_mem _ _ _ _ hx]
      rw [List.filter_cons_of_neg (by simp [hx])]
    · rw [keyList_bump_new _ _ _ _ hx]
      rw [List.filter_cons_of_pos (by simp [hx])]
      have hstep : dedupKeepFirst (x :: ts.filter (fun y => decide (y ∉ keyList m)))
          = x :: dedupKeepFirst ((ts.filter (fun y => decide (y ∉ keyList m))).filter
              (fun y => decide (y ≠ x))) := by
        simp [dedupKeepFirst]
      rw [hstep]
      have hff : (ts.filter (fun y => decide (y ∉ keyList m))).filter (fun y => decide (y ≠ x))
          = ts.filter (fun y => decide (y ∉ keyList m ++ [x])) := by
        rw [List.filter_filter]
        apply List.filter_congr
        intro a ha
        by_cases h1 : a = x <;> by_cases h2 : a ∈ keyList m <;> simp [h1, h2]
      rw [← hff]
      simp [List.append_assoc]

theorem tally_keys_eq (ts : List CommitType) :
    keyList (mostCommonType ts) = dedupKeepFirst ts := by
  have h := tally_aux_keys ts []
  simpa [keyList] using h

/-! ### First-occurrence order of the tally keys -/

/-- Index of the first occurrence of a category in a member-category list. -/
def firstIdx : List CommitType → CommitType → Nat
  | [], _ => 0
  | x :: xs, a => if x = a then 0 else firstIdx xs a + 1

theorem firstIdx_filter_lt (p : CommitType → Bool) (l : List CommitType) (a b : CommitType)
    (ha : a ∈ l.filter p) (hb : b ∈ l.filter p)
    (hlt : firstIdx (l.filter p) a < firstIdx (l.filter p) b) :
    firstIdx l a < firstIdx l b := by
  induction l with
  | nil => simp at ha
  | cons x xs ih =>
    by_cases hpx : p x = true
    · rw [List.filter_cons_of_pos hpx] at ha hb hlt
      by_cases hxa : x = a
      · subst hxa
        have hxb : x ≠ b := by
          intro he
          subst he
          simp [firstIdx] at hlt
        simp [firstIdx, hxb]
      · by_cases hxb : x = b
        · subst hxb
          simp [firstIdx, hxa] at hlt
        · simp only [firstIdx, if_neg hxa, if_neg hxb] at hlt ⊢
          have ha' : a ∈ xs.filter p := by
            rcases List.mem_cons.mp ha with h | h
            · exact absurd h.symm hxa
            · exact h
          have hb' : b ∈ xs.filter p := by
            rcases List.mem_cons.mp hb with h | h
            · exact absurd h.symm hxb
            · exact h
          have := ih ha' hb' (by omega)
          omega
    · rw [List.filter_cons_of_neg hpx] at ha hb hlt
      have hxa : x ≠ a := by
        rintro rfl
        exact hpx (List.mem_filter.mp ha).2
      have hxb : x ≠ b := by
        rintro rfl
        exact hpx (List.mem_filter.mp hb).2
      simp only [firstIdx, if_neg hxa, if_neg hxb]
      have := ih ha hb hlt
      omega

theorem mem_dedupKeepFirst_aux :
    ∀ (n : Nat) (l : List CommitType), l.length ≤ n →
      ∀ a ∈ dedupKeepFirst l, a ∈ l := by
  intro n
  induction n with
  | zero =>
    intro l hl a ha
    have hnil : l = [] := List.length_eq_zero.mp (Nat.le_zero.mp hl)
    subst hnil
    simp [dedupKeepFirst] at ha
  | succ n ih =>
    intro l hl a ha
    match l with
    | [] => simp [dedupKeepFirst] at ha
    | t :: ts =>
      rw [show dedupKeepFirst (t :: ts)
          = t :: dedupKeepFirst (ts.filter (fun x => decide (x ≠ t))) from by
        simp [dedupKeepFirst]] at ha
      rcases List.mem_cons.mp ha with rfl | ha
      · exact List.mem_cons_self _ _
      · have hlen : (ts.filter (fun x => decide (x ≠ t))).length ≤ n := by
          have h1 := List.length_filter_le (fun x => decide (x ≠ t)) ts
          simp only [List.length_cons] at hl
          omega
        have h2 := ih _ hlen a ha
        exact List.mem_cons_of_mem _ (List.mem_filter.mp h2).1

theorem mem_dedupKeepFirst {l : List CommitType} {a : CommitType}
    (h : a ∈ dedupKeepFirst l) : a ∈ l :=
  mem_dedupKeepFirst_aux l.length l (le_refl _) a h

theorem dedupKeepFirst_pairwise_aux :
    ∀ (n : Nat) (l : List CommitType), l.length ≤ n →
      (dedupKeepFirst l).Pairwise (fun a b => firstIdx l a < firstIdx l b) := by
  intro n
  induction n with
  | zero =>
    intro l hl
    have hnil : l = [] := List.length_eq_zero.mp (Nat.le_zero.mp hl)
    subst hnil
    simp [dedupKeepFirst]
  | succ n ih =>
    intro l hl
    match l with
    | [] => simp [dedupKeepFirst]
    | t :: ts =>
      rw [show dedupKeepFirst (t :: ts)
          = t :: dedupKeepFirst (ts.filter (fun x => decide (x ≠ t))) from by
        simp [dedupKeepFirst]]
      have hlen : (ts.filter (fun x => decide (x ≠ t))).length ≤ n := by
        have h1 := List.length_filter_le (fun x => decide (x ≠ t)) ts
        simp only [List.length_cons] at hl
        omega
      refine List.pairwise_cons.mpr ⟨?_, ?_⟩
      · intro b hb
        have hbf := mem_dedupKeepFirst hb
        have hbt : b ≠ t := by simpa using (List.mem_filter.mp hbf).2
        simp [firstIdx, Ne.symm hbt]
      · refine List.Pairwise.imp_of_mem ?_ (ih _ hlen)
        intro a b ha hb hab
        have ha' := mem_dedupKeepFirst ha
        have hb' := mem_dedupKeepFirst hb
        have hat : a ≠ t := by simpa using (List.mem_filter.mp ha').2
        have hbt : b ≠ t := by simpa using (List.mem_filter.mp hb').2
        have h2 := firstIdx_filter_lt _ _ _ _ ha' hb' hab
        simp only [firstIdx, if_neg (Ne.symm hat), if_neg (Ne.symm hbt)]
        omega

theorem dedupKeepFirst_pairwise (l : List CommitType) :
    (dedupKeepFirst l).Pairwise (fun a b => firstIdx l a < firstIdx l b) :=
  dedupKeepFirst_pairwise_aux l.length l (le_refl _)

/-! ### Stable descending sort of the tally -/

theorem insertDesc_perm {K : Type} (p : K × Nat) (l : List (K × Nat)) :
    (insertDesc p l).Perm (p :: l) := by
  induction l with
  | nil => simp [insertDesc]
  | cons q qs ih =>
    by_cases h : q.2 ≤ p.2
    · simp [insertDesc, h]
    · simp only [insertDesc, if_neg h]
      exact (ih.cons q).trans (List.Perm.swap p q qs)

theorem sortDescByCount_perm {K : Type} (l : List (K × Nat)) :
    (sortDescByCount l).Perm l := by
  induction l with
  | nil => simp [sortDescByCount]
  | cons p l ih => exact (insertDesc_perm p (sortDescByCount l)).trans (ih.cons p)

/-- The maximal count appearing in a tally. -/
def maxCnt {K : Type} (l : List (K × Nat)) : Nat := l.foldr (fun p n => max p.2 n) 0

theorem maxCnt_cons {K : Type} (q : K × Nat) (l : List (K × Nat)) :
    maxCnt (q :: l) = max q.2 (maxCnt l) := rfl

theorem le_maxCnt {K : Type} {l : List (K × Nat)} {p : K × Nat} (h : p ∈ l) :
    p.2 ≤ maxCnt l := by
  induction l with
  | nil => simp at h
  | cons q qs ih =>
    rcases List.mem_cons.mp h with rfl | h
    · rw [maxCnt_cons]
      exact le_max_left _ _
    · rw [maxCnt_cons]
      exact le_trans (ih h) (le_max_right _ _)

theorem sortDescByCount_head {K : Type} (l : List (K × Nat)) :
    (sortDescByCount l).head? = l.find? (fun p => decide (maxCnt l ≤ p.2)) := by
  induction l with
  | nil => simp [sortDescByCount]
  | cons x l ih =>
    cases l with
    | nil =>
      have hx : decide (maxCnt [x] ≤ x.2) = true := by
        simp [maxCnt_cons, maxCnt]
      simp [sortDescByCount, insertDesc, List.find?, hx]
    | cons y l' =>
      have hS : sortDescByCount (y :: l') ≠ [] := by
        intro hemp
        have hperm := sortDescByCount_perm (y :: l')
        rw [hemp] at hperm
        have := hperm.length_eq
        simp at this
      obtain ⟨h, t, hht⟩ : ∃ h t, sortDescByCount (y :: l') = h :: t := by
        cases hS' : sortDescByCount (y :: l') with
        | nil => exact absurd hS' hS
        | cons h t => exact ⟨h, t, rfl⟩
      have hfind : (y :: l').find? (fun p => decide (maxCnt (y :: l') ≤ p.2)) = some h := by
        rw [← ih, hht]
        rfl
      have hpred := List.find?_some hfind
      have hmem := List.mem_of_find?_eq_some hfind
      have hle := le_maxCnt hmem
      have hge := of_decide_eq_true hpred
      have heq : h.2 = maxCnt (y :: l') := le_antisymm hle hge
      show (insertDesc x (sortDescByCount (y :: l'))).head? = _
      rw [hht]
      by_cases hc : h.2 ≤ x.2
      · have hmax : maxCnt (x :: y :: l') = x.2 := by
          rw [maxCnt_cons]
          exact max_eq_left (heq ▸ hc)
        have hpx : decide (maxCnt (x :: y :: l') ≤ x.2) = true := by
          rw [hmax]
          simp
        rw [@List.find?_cons_of_pos _ (fun p => decide (maxCnt (x :: y :: l') ≤ p.2))
          x (y :: l') hpx]
        simp [insertDesc, hc]
      · have hlt : x.2 < h.2 := Nat.lt_of_not_le hc
        have hmax : maxCnt (x :: y :: l') = maxCnt (y :: l') := by
          rw [maxCnt_cons]
          exact max_eq_right (le_of_lt (heq ▸ hlt))
        have hpx : ¬ decide (maxCnt (x :: y :: l') ≤ x.2) = true := by
          rw [hmax, ← heq]
          simp
          omega
        rw [@List.find?_cons_of_neg _ (fun p => decide (maxCnt (x :: y :: l') ≤ p.2))
          x (y :: l') hpx]
        simp only [hmax]
        rw [hfind]
        simp only [insertDesc, if_neg hc, List.head?_cons]

/-! ### Claims C3 and C4 -/

/-- Claim C3: the dominant category of a cluster's member commits is one whose
frequency among the members' effective categories is maximal. -/
theorem dominant_is_max (commits : List Commit) (d : CommitType)
    (h : dominantType commits = some d) :
    d ∈ clusterCommitTypes commits
      ∧ ∀ t ∈ clusterCommitTypes commits,
          (clusterCommitTypes commits).count t ≤ (clusterCommitTypes commits).count d := by
  unfold dominantType at h
  rw [sortDescByCount_head] at h
  rcases Option.map_eq_some'.mp h with ⟨⟨d', n⟩, hfind, hd⟩
  have hd2 : d' = d := hd
  subst hd2
  have hpred := List.find?_some hfind
  have hmem := List.mem_of_find?_eq_some hfind
  rcases tally_mem_count hmem with ⟨hdin, hn⟩
  refine ⟨hdin, ?_⟩
  intro t ht
  have h1 := le_maxCnt (tally_count_mem ht)
  have h2 := of_decide_eq_true hpred
  omega

/-- Witness for dominant_is_max: scenario FEATURE, FEATURE, BUG — FEATURE is
dominant and its count dominates BUG's. -/
theorem dominant_is_max_w :
    CommitType.FEATURE ∈ clusterCommitTypes [featX, featY, bugX]
      ∧ (clusterCommitTypes [featX, featY, bugX]).count CommitType.BUG
          ≤ (clusterCommitTypes [featX, featY, bugX]).count CommitType.FEATURE :=
  ⟨(dominant_is_max [featX, featY, bugX] CommitType.FEATURE (by decide)).1,
   (dominant_is_max [featX, featY, bugX] CommitType.FEATURE (by decide)).2
     CommitType.BUG (by decide)⟩

/-- Claim C4: tie-break — the dominant category is the tied category whose
first occurrence among the members' effective categories comes earliest. -/
theorem dominant_tiebreak (commits : List Commit) (d : CommitType)
    (h : dominantType commits = some d) :
    ∀ t ∈ clusterCommitTypes commits,
      (clusterCommitTypes commits).count t = (clusterCommitTypes commits).count d →
      firstIdx (clusterCommitTypes commits) d ≤ firstIdx (clusterCommitTypes commits) t := by
  intro t ht hcnt
  by_cases htd : t = d
  · subst htd
    exact le_refl _
  unfold dominantType at h
  rw [sortDescByCount_head] at h
  rcases Option.map_eq_some'.mp h with ⟨⟨d', n⟩, hfind, hd⟩
  have hd2 : d' = d := hd
  rw [hd2] at hfind
  rcases List.find?_eq_some.mp hfind with ⟨hpred, as, bs, htal, hall⟩
  have hmem : (d, n) ∈ mostCommonType (clusterCommitTypes commits) := by
    rw [htal]
    exact List.mem_append_right _ (List.mem_cons_self _ _)
  rcases tally_mem_count hmem with ⟨-, hn⟩
  have hmaxle := of_decide_eq_true hpred
  have htmem : (t, (clusterCommitTypes commits).count t)
      ∈ mostCommonType (clusterCommitTypes commits) := tally_count_mem ht
  rw [htal] at htmem
  rcases List.mem_append.mp htmem with hin | hin
  · have hnp := hall _ hin
    have hf : ¬ maxCnt (mostCommonType (clusterCommitTypes commits))
        ≤ (clusterCommitTypes commits).count t := by
      simpa using hnp
    rw [hcnt, ← hn] at hf
    exact absurd hmaxle hf
  · rcases List.mem_cons.mp hin with heq | hin
    · injection heq with h1 h2
      exact absurd h1 htd
    · have hpair := dedupKeepFirst_pairwise (clusterCommitTypes commits)
      rw [← tally_keys_eq, htal] at hpair
      have hkeys : keyList (as ++ (d, n) :: bs) = keyList as ++ d :: keyList bs := by
        simp [keyList]
      rw [hkeys] at hpair
      rcases List.pairwise_append.mp hpair with ⟨-, hpair2, -⟩
      rcases List.pairwise_cons.mp hpair2 with ⟨hd_all, -⟩
      have htk : t ∈ keyList bs := by
        simp only [keyList]
        exact List.mem_map.mpr ⟨(t, (clusterCommitTypes commits).count t), hin, rfl⟩
      exact le_of_lt (hd_all t htk)

/-- Witness for dominant_tiebreak: BUG and FEATURE tie two against two; BUG
entered the tally first and wins, so its first occurrence is not later. -/
theorem dominant_tiebreak_w :
    firstIdx (clusterCommitTypes [bugX, featX, featY, bugY]) CommitType.BUG
      ≤ firstIdx (clusterCommitTypes [bugX, featX, featY, bugY]) CommitType.FEATURE :=
  dominant_tiebreak [bugX, featX, featY, bugY] CommitType.BUG (by decide)
    CommitType.FEATURE (by decide) (by decide)

/-! ### Claims C5 and C6 -/

/-- A sample commit whose commit_analyses field is a present empty array. -/
def choreX : Commit := ⟨"n", 0, "u", "m", none, some [], none⟩

/-- Claim C5: the effective category of a commit is the category of the first
attached analysis in stored order, and CHORE when there are none; the
multi-member path computes exactly the same per-member category as the
singleton path. -/
theorem effective_category (c : Commit) (commits : List Commit) :
    ((analysesOf c = [] → singletonCommitType c = CommitType.CHORE)
      ∧ ∀ a rest, analysesOf c = a :: rest → singletonCommitType c = a.type)
    ∧ clusterCommitTypes commits = commits.map singletonCommitType := by
  refine ⟨⟨?_, ?_⟩, ?_⟩
  · intro h
    unfold singletonCommitType
    rw [h]
    rfl
  · intro a rest h
    unfold singletonCommitType
    rw [h]
    rfl
  · rfl

/-- Witness for effective_category: a commit with a present-but-empty analysis
array resolves to CHORE, and the cluster path agrees with the singleton path
on a concrete member list. -/
theorem effective_category_w :
    singletonCommitType choreX = CommitType.CHORE
      ∧ clusterCommitTypes [choreX, featX] = List.map singletonCommitType [choreX, featX] :=
  ⟨(effective_category choreX []).1.1 rfl,
   (effective_category choreX [choreX, featX]).2⟩

/-- Claim C6: the rendered rows are exactly the groups with at least one
commit — a rendered row never has an empty member list, and every non-empty
group is rendered. -/
theorem no_empty_groups (grouped : List (String × List Commit)) :
    (∀ g ∈ renderedGroups grouped, g.2 ≠ [])
    ∧ ∀ g ∈ grouped, g.2 ≠ [] → g ∈ renderedGroups grouped := by
  constructor
  · intro g hg
    have h2 := (List.mem_filter.mp hg).2
    have h3 := of_decide_eq_true h2
    exact List.length_pos.mp h3
  · intro g hg hne
    exact List.mem_filter.mpr ⟨hg, decide_eq_true (List.length_pos.mpr hne)⟩

/-- Witness for no_empty_groups: with one empty and one non-empty group, the
rendered row has a non-empty member list and the non-empty group is rendered. -/
theorem no_empty_groups_w :
    (("r", [sampleA]) : String × List Commit).2 ≠ []
      ∧ (("r", [sampleA]) : String × List Commit)
          ∈ renderedGroups [("r", [sampleA]), ("e", [])] :=
  ⟨(no_empty_groups [("r", [sampleA]), ("e", [])]).1 ("r", [sampleA])
      ((no_empty_groups [("r", [sampleA]), ("e", [])]).2 ("r", [sampleA])
        (List.mem_cons_self _ _) (by simp)),
   (no_empty_groups [("r", [sampleA]), ("e", [])]).2 ("r", [sampleA])
      (List.mem_cons_self _ _) (by simp)⟩

/-! ### URL extraction: leftmost-match characterization -/

theorem matchAtB_zero (s : List Char) :
    matchAtB s 0 = (leadsWith ghp s && (capturePair (s.drop ghp.length)).isSome) := by
  unfold matchAtB
  rw [List.drop_zero, Nat.zero_add]

theorem matchAtB_succ (c : Char) (cs : List Char) (i : Nat) :
    matchAtB (c :: cs) (i + 1) = matchAtB cs i := by
  unfold matchAtB
  rw [List.drop_succ_cons, show i + 1 + ghp.length = (i + ghp.length) + 1 from by omega,
    List.drop_succ_cons]

theorem findRepoMatch_none (s : List Char) (h : ∀ i, matchAtB s i = false) :
    findRepoMatch s = none := by
  induction s with
  | nil => rfl
  | cons c cs ih =>
    have h0 := h 0
    unfold findRepoMatch
    by_cases hp : leadsWith ghp (c :: cs) = true
    · have hcap : capturePair ((c :: cs).drop ghp.length) = none := by
        cases hcap2 : capturePair ((c :: cs).drop ghp.length) with
        | none => rfl
        | some g =>
          rw [matchAtB_zero, hcap2] at h0
          simp [hp] at h0
      rw [if_pos hp, hcap]
      exact ih (fun i => by rw [← matchAtB_succ c cs i]; exact h (i + 1))
    · rw [if_neg hp]
      exact ih (fun i => by rw [← matchAtB_succ c cs i]; exact h (i + 1))

theorem findRepoMatch_leftmost (s : List Char) (i : Nat)
    (hi : matchAtB s i = true) (hmin : ∀ j < i, matchAtB s j = false) :
    findRepoMatch s = capturePair (s.drop (i + ghp.length)) := by
  induction s generalizing i with
  | nil =>
    exfalso
    unfold matchAtB at hi
    simp [List.drop_nil, ghp, leadsWith] at hi
  | cons c cs ih =>
    cases i with
    | zero =>
      rw [matchAtB_zero] at hi
      rw [Bool.and_eq_true] at hi
      rcases hi with ⟨hp, hcap⟩
      unfold findRepoMatch
      rw [if_pos hp, Nat.zero_add]
      cases hcap2 : capturePair ((c :: cs).drop ghp.length) with
      | none =>
        rw [hcap2] at hcap
        simp at hcap
      | some g => rfl
    | succ j =>
      have h0 : matchAtB (c :: cs) 0 = false := hmin 0 (Nat.succ_pos j)
      have hi' : matchAtB cs j = true := by
        rw [← matchAtB_succ]
        exact hi
      have hmin' : ∀ k < j, matchAtB cs k = false := by
        intro k hk
        rw [← matchAtB_succ]
        exact hmin (k + 1) (by omega)
      unfold findRepoMatch
      rw [show j + 1 + ghp.length = (j + ghp.length) + 1 from by omega, List.drop_succ_cons]
      by_cases hp : leadsWith ghp (c :: cs) = true
      · have hcap : capturePair ((c :: cs).drop ghp.length) = none := by
          cases hcap2 : capturePair ((c :: cs).drop ghp.length) with
          | none => rfl
          | some g =>
            rw [matchAtB_zero, hcap2] at h0
            simp [hp] at h0
        rw [if_pos hp, hcap]
        exact ih j hi' hmin'
      · rw [if_neg hp]
        exact ih j hi' hmin'

/-- Claim C9: extractRepoNameFromUrl truncates the URL at the first '?' or
'#', drops one trailing ".git", and returns the owner/repo pair captured at
the leftmost offset where github.com/[^/]+/[^/]+ matches the cleaned text,
or the empty string when the pattern matches nowhere; it is a total
function. -/
theorem extract_repo_name (url : List Char) :
    ((∀ i, matchAtB (dropGitSuffix (dropParams url)) i = false) →
        extractRepoNameFromUrl url = [])
    ∧ (∀ i, matchAtB (dropGitSuffix (dropParams url)) i = true →
        (∀ j < i, matchAtB (dropGitSuffix (dropParams url)) j = false) →
        extractRepoNameFromUrl url
          = (capturePair ((dropGitSuffix (dropParams url)).drop (i + ghp.length))).getD []) := by
  constructor
  · intro h
    unfold extractRepoNameFromUrl
    rw [findRepoMatch_none _ h]
  · intro i hi hmin
    unfold extractRepoNameFromUrl
    rw [findRepoMatch_leftmost _ i hi hmin]
    unfold matchAtB at hi
    rw [Bool.and_eq_true] at hi
    rcases hi with ⟨-, hcap⟩
    cases hcap2 : capturePair ((dropGitSuffix (dropParams url)).drop (i + ghp.length)) with
    | none =>
      rw [hcap2] at hcap
      simp at hcap
    | some g => rfl

/-- Witness for extract_repo_name: on a concrete URL carrying a query string
and a .git suffix, the leftmost match is at offset 8 and yields foo/bar. -/
theorem extract_repo_name_w :
    extractRepoNameFromUrl (("https://github.com/foo/bar.git?tab=1").toList)
      = (capturePair ((dropGitSuffix
          (dropParams (("https://github.com/foo/bar.git?tab=1").toList))).drop
            (8 + ghp.length))).getD [] :=
  (extract_repo_name (("https://github.com/foo/bar.git?tab=1").toList)).2 8
    (by decide) (by decide)

/-! ### Claim C10 -/

/-- Claim C10: handleSubmit reaches onSubmit only when the URL trims to a
non-empty string, validateUrl accepts it, and extractRepoNameFromUrl returns
a non-empty name; the submitted outcome carries exactly that URL and that
extracted name. -/
theorem submit_guard (url : List Char) (chk : Except Unit Bool)
    (u r : List Char) (e : Bool)
    (h : handleSubmit url chk = SubmitResult.submitted u r e) :
    jsTrim url ≠ [] ∧ validateUrl url = true ∧ extractRepoNameFromUrl url ≠ []
      ∧ u = url ∧ r = extractRepoNameFromUrl url := by
  unfold handleSubmit at h
  by_cases h1 : (jsTrim url).isEmpty = true
  · rw [if_pos h1] at h
    simp at h
  · rw [if_neg h1] at h
    by_cases h2 : validateUrl url = true
    · rw [if_neg (by simp [h2])] at h
      dsimp only at h
      by_cases h3 : (extractRepoNameFromUrl url).isEmpty = true
      · rw [if_pos h3] at h
        simp at h
      · rw [if_neg h3] at h
        cases chk with
        | error err => simp at h
        | ok ex =>
          injection h with hu hr he
          refine ⟨?_, h2, ?_, hu.symm, hr.symm⟩
          · intro hnil
            exact h1 (by simp [List.isEmpty_iff, hnil])
          · intro hnil
            exact h3 (by simp [List.isEmpty_iff, hnil])
    · have hv : validateUrl url = false := by
        cases hvv : validateUrl url
        · rfl
        · exact absurd hvv h2
      rw [if_pos (by simp [hv])] at h
      simp at h

/-- Witness for submit_guard at a concrete valid URL with a successful
existence check. -/
theorem submit_guard_w :
    jsTrim (("https://github.com/a/b").toList) ≠ []
      ∧ validateUrl (("https://github.com/a/b").toList) = true
      ∧ extractRepoNameFromUrl (("https://github.com/a/b").toList) ≠ []
      ∧ ("https://github.com/a/b").toList = ("https://github.com/a/b").toList
      ∧ ("a/b").toList = extractRepoNameFromUrl (("https://github.com/a/b").toList) :=
  submit_guard (("https://github.com/a/b").toList) (Except.ok true)
    (("https://github.com/a/b").toList) (("a/b").toList) true (by decide)

end CTG
